import Mathlib

/-
  Verification development for the TDTAemInvert trans-dimensional AEM
  inversion sampler.  The definitions below are shallow embeddings of the
  relevant C++ routines: the residual-buffer bookkeeping of Global
  (global.cpp), the serial and parallel likelihood residual fills, the
  CLI and constructor validation of the grid degrees, the kmax
  truncation, the khistogram accumulation of the driver loop
  (aeminvert_pt.cpp), the temperature ladder, and the postprocessor
  histogram routines (histogram_index, head_from_histogram,
  tail_from_histogram).  Machine doubles are modelled as exact rationals
  (or reals where transcendental functions appear); C int casts are
  modelled as truncation toward zero.
-/

namespace TDTAemInvert

/-! ## Global residual-buffer state (global.cpp)

The fields mirror the members of class Global that the accept/reject and
residual-validity protocol touch: the working residual buffers, the
last-valid copies saved at the last accepted step, the validity flag and
the running-mean statistics updated by update_residual_mean.  The wavelet
tree model is abstracted to an identifier, and the forward computation
that fills the residual buffers is passed in as a function of it. -/

structure GlobalState where
  model : ℕ
  residual : List ℚ
  residual_normed : List ℚ
  last_valid_residual : List ℚ
  last_valid_residual_normed : List ℚ
  residuals_valid : Bool
  mean_residual : List ℚ
  mean_residual_normed : List ℚ
  mean_residual_n : ℕ
deriving DecidableEq

namespace Global

/-- Global::update_residual_mean: increments the sample counter and folds
the last-valid residual buffers into the running means. -/
def update_residual_mean (s : GlobalState) : GlobalState :=
  let n := s.mean_residual_n + 1
  { s with
    mean_residual_n := n
    mean_residual :=
      List.zipWith (fun m lv => m + (lv - m) / (n : ℚ))
        s.mean_residual s.last_valid_residual
    mean_residual_normed :=
      List.zipWith (fun m lv => m + (lv - m) / (n : ℚ))
        s.mean_residual_normed s.last_valid_residual_normed }

/-- Global::accept: sets residuals_valid, copies the working residual
buffers into the last-valid copies, then updates the running means. -/
def accept (s : GlobalState) : GlobalState :=
  update_residual_mean
    { s with
      residuals_valid := true
      last_valid_residual := s.residual
      last_valid_residual_normed := s.residual_normed }

/-- Global::reject: only updates the running means; no residual buffer is
copied in either direction. -/
def reject (s : GlobalState) : GlobalState :=
  update_residual_mean s

/-- Global::invalidate_residuals. -/
def invalidate_residuals (s : GlobalState) : GlobalState :=
  { s with residuals_valid := false }

/-- The effect of Global::likelihood on the residual buffers: the forward
model of the current tree model is evaluated and the working residual and
normed-residual buffers are overwritten with the fresh values.  The
forward computation is abstracted as the function f. -/
def likelihood_eval (f : ℕ → List ℚ × List ℚ) (s : GlobalState) : GlobalState :=
  { s with residual := (f s.model).1, residual_normed := (f s.model).2 }

/-- A proposal evaluation that wrote fresh values into the working
residual buffers (the body of a birth/death/value likelihood call). -/
def set_residuals (s : GlobalState) (r rn : List ℚ) : GlobalState :=
  { s with residual := r, residual_normed := rn }

/-- Global::hierarchical_likelihood: if the residuals are stale it first
runs a full likelihood evaluation and accepts it, then computes the
hierarchical negative log likelihood from the last-valid residuals with
the proposed lambda scale.  hnll abstracts the per-sample noise model
sum. -/
def hierarchical_likelihood (f : ℕ → List ℚ × List ℚ)
    (hnll : ℚ → List ℚ → ℚ) (lam : ℚ) (s : GlobalState) : ℚ × GlobalState :=
  let s1 := if s.residuals_valid then s else accept (likelihood_eval f s)
  (hnll lam s1.last_valid_residual, s1)

end Global

/-- The driver PT-exchange block of aeminvert_pt.cpp: the exchange step
may transplant a whole model into this chain (the transplant function is
arbitrary here); on a successful exchange the driver invalidates the
residuals before the next iteration of the move loop. -/
def driver_pt_exchange (transplant : GlobalState → GlobalState)
    (exchanged : Bool) (s : GlobalState) : GlobalState :=
  let s1 := if exchanged then transplant s else s
  if exchanged then Global.invalidate_residuals s1 else s1

/-! ## Serial versus parallel likelihood, Z-direction branch (global.cpp)

Both paths first check that the observed response length equals the
forward-model SZ window count (throwing on mismatch, modelled by Option).
The serial path then writes residual entries for l < SZ.size(); the
parallel path loops on l < SY.size() while still indexing SZ.  Entries
that are not written keep their previous contents. -/

def residual_fill_z_serial (obs SZ res : List ℚ) : Option (List ℚ) :=
  if obs.length = SZ.length then
    some ((List.range res.length).map (fun l =>
      if l < SZ.length then obs.getD l 0 - SZ.getD l 0 else res.getD l 0))
  else none

def residual_fill_z_mpi (obs SY SZ res : List ℚ) : Option (List ℚ) :=
  if obs.length = SZ.length then
    some ((List.range res.length).map (fun l =>
      if l < SY.length then obs.getD l 0 - SZ.getD l 0 else res.getD l 0))
  else none

/-! ## Posterior-k mode of the likelihood entry points (global.cpp)

Both functions take the output reference parameter log_normalization;
its value on entry is logn.  When posteriork is clear they run the full
forward evaluation (abstracted by compute, which also yields the value
written to log_normalization).  When posteriork is set, the serial
Global::likelihood returns 1.0 without writing log_normalization, while
Global::likelihood_mpi writes 0.0 and returns 1.0. -/

def likelihood_serial (compute : Unit → ℚ × ℚ) (posteriork : Bool)
    (logn : ℚ) : ℚ × ℚ :=
  if posteriork = false then compute () else (1, logn)

def likelihood_mpi_entry (compute : Unit → ℚ × ℚ) (posteriork : Bool)
    (logn : ℚ) : ℚ × ℚ :=
  if posteriork = false then compute () else (1, 0)

/-! ## Grid-degree validation (aeminvert_pt.cpp option parsing and the
Global constructor) -/

/-- CLI option check for a single degree (aeminvert_pt.cpp): rejects
values below 1 or above 16, so it accepts exactly 1..16 inclusive. -/
def cli_degree_ok (d : ℤ) : Bool :=
  !(decide (d < 1) || decide (16 < d))

/-- Global constructor degree check (global.cpp): throws when a degree is
negative or at least 16, so it accepts exactly 0..15. -/
def global_degree_ok (dx dy : ℤ) : Bool :=
  !(decide (dx < 0) || decide (16 ≤ dx) || decide (dy < 0) || decide (16 ≤ dy))

/-! ## kmax truncation (Global constructor) and the khistogram
allocation of the driver (aeminvert_pt.cpp) -/

/-- The Global constructor truncates its kmax member to ncoeff when it
exceeds the number of wavelet coefficients, logging only a warning. -/
def global_kmax (kmax ncoeff : ℕ) : ℕ :=
  if ncoeff < kmax then ncoeff else kmax

/-- The hnk table is created with the (possibly truncated) member kmax. -/
def hnk_kmax (kmax ncoeff : ℕ) : ℕ := global_kmax kmax ncoeff

/-- The driver allocates the khistogram array with its own untruncated
CLI kmax (aeminvert_pt.cpp, new int[kmax]). -/
def khistogram_size (kmax : ℕ) : ℕ := kmax

/-! ## Khistogram accumulation in the driver loop (aeminvert_pt.cpp)

After every iteration the driver reads the current coefficient count k of
the wavelet tree and increments khistogram[k - 1]; at the end of the run
the bins 1..kmax are written out. -/

/-- One iteration of the khistogram update: khistogram[k - 1]++. -/
def khistogram_update (hist : List ℕ) (k : ℕ) : List ℕ :=
  hist.set (k - 1) (hist.getD (k - 1) 0 + 1)

/-- The whole run: the histogram starts zeroed with kmax bins and is
updated once per iteration with that iteration's coefficient count. -/
def khistogram_run (kmax : ℕ) (ks : List ℕ) : List ℕ :=
  ks.foldl khistogram_update (List.replicate kmax 0)

/-! ## Postprocessor histogram accumulation (process and histogram_index)

The postprocessor replays chain-history steps; a step passes the filter
when thincounter >= skip and (thin <= 1 or thincounter mod thin = 0).  A
passing step increments the record counter and, for every pixel of the
reconstructed image, one bin of that pixel's histogram.  The C cast
(int) truncates toward zero. -/

/-- Truncation toward zero of a rational, the semantics of a C cast from
double to int (for values in int range). -/
def cIntCast (q : ℚ) : ℤ := q.num / (q.den : ℤ)

/-- histogram_index: computes bins * (v - vmin) / (vmax - vmin) truncated
to int, then clamps the result into [0, bins - 1]. -/
def histogram_index (v vmin vmax : ℚ) (bins : ℕ) : ℤ :=
  let i : ℤ := cIntCast ((bins : ℚ) * (v - vmin) / (vmax - vmin))
  if i < 0 then 0
  else if (bins : ℤ) - 1 < i then (bins : ℤ) - 1
  else i

/-- One histogram bin increment: hist[i]++. -/
def bump (h : List ℕ) (i : ℕ) : List ℕ :=
  h.set i (h.getD i 0 + 1)

/-- Postprocessor accumulation state: the thinning counter, the count of
recorded (filter-passing) samples and the per-pixel histograms. -/
structure PPData where
  thincounter : ℕ
  counter : ℕ
  hist : List (List ℕ)
deriving DecidableEq

/-- One call of the postprocessor process callback on the reconstructed
per-pixel values of a replayed step. -/
def pp_process (skip thin : ℕ) (vmin vmax : ℚ) (bins : ℕ)
    (d : PPData) (model : List ℚ) : PPData :=
  if skip ≤ d.thincounter ∧ (thin ≤ 1 ∨ d.thincounter % thin = 0) then
    { thincounter := d.thincounter + 1
      counter := d.counter + 1
      hist := List.zipWith
        (fun h v => bump h (histogram_index v vmin vmax bins).toNat)
        d.hist model }
  else
    { d with thincounter := d.thincounter + 1 }

/-- Replay of a whole list of steps starting from the zeroed state. -/
def pp_run (skip thin : ℕ) (vmin vmax : ℚ) (bins npixels : ℕ)
    (models : List (List ℚ)) : PPData :=
  models.foldl (pp_process skip thin vmin vmax bins)
    ⟨0, 0, List.replicate npixels (List.replicate bins 0)⟩

/-! ## Credible interval extraction from a pixel histogram
(head_from_histogram and tail_from_histogram of the postprocessor) -/

/-- The centre value of histogram bin i. -/
def bin_centre (bins : ℕ) (vmin vmax : ℚ) (i : ℕ) : ℚ :=
  ((i : ℚ) + 1/2) / (bins : ℚ) * (vmax - vmin) + vmin

/-- The head loop of head_from_histogram: walk the histogram from the
left, accumulating counts in ci, and stop at the bin where the
accumulated mass would reach drop (or at the end of the histogram). -/
def headIdxAux (drop : ℕ) : List ℕ → ℕ → ℕ → ℕ
  | [], _, i => i
  | h :: t, ci, i =>
    if ci < drop then
      (if drop ≤ h + ci then i else headIdxAux drop t (ci + h) (i + 1))
    else i

/-- The tail loop of tail_from_histogram: walk the histogram from the
right (the reversed list), decrementing the index from bins - 1, and stop
where the accumulated mass would reach drop or at index 0. -/
def tailIdxAux (drop : ℕ) : List ℕ → ℕ → ℕ → ℕ
  | [], _, i => i
  | h :: t, cj, i =>
    if 0 < i ∧ cj < drop then
      (if drop ≤ h + cj then i else tailIdxAux drop t (cj + h) (i - 1))
    else i

/-- head_from_histogram: the credible-interval minimum for one pixel. -/
def head_from_histogram (hist : List ℕ) (vmin vmax : ℚ) (bins drop : ℕ) : ℚ :=
  bin_centre bins vmin vmax (headIdxAux drop hist 0 0)

/-- tail_from_histogram: the credible-interval maximum for one pixel. -/
def tail_from_histogram (hist : List ℕ) (vmin vmax : ℚ) (bins drop : ℕ) : ℚ :=
  bin_centre bins vmin vmax (tailIdxAux drop hist.reverse 0 (bins - 1))

/-! ## Temperature ladder of the parallel-tempering driver
(aeminvert_pt.cpp): with a single temperature level every chain runs at
temperature 1; otherwise level t of M levels runs at
10 ^ (log10(max_temperature) * t / (M - 1)). -/

noncomputable def chainTemperature (temperatures temp_id : ℕ)
    (max_temperature : ℝ) : ℝ :=
  if temperatures = 1 then 1
  else (10 : ℝ) ^ (Real.logb 10 max_temperature * (temp_id : ℝ) /
    ((temperatures : ℝ) - 1))

/-! ## Theorems -/

/-- C1 counterexample: after a rejected residual-recomputing move, the
working residual buffer does not hold the last-valid values again; it
keeps the rejected proposal's values, so the copy-back asserted by the
claim does not happen. -/
theorem reject_does_not_restore_residual_cex :
    (Global.reject (Global.set_residuals
      ⟨0, [1], [2], [1], [2], true, [0], [0], 0⟩ [5] [6])).residual ≠
    (Global.reject (Global.set_residuals
      ⟨0, [1], [2], [1], [2], true, [0], [0], 0⟩ [5] [6])).last_valid_residual := by
  decide

/-- C1 (amended): Global::reject preserves last_valid_residual and
last_valid_residual_normed exactly as saved at the last accepted step,
but does not copy them back into the working buffers: after a rejected
move that overwrote the working residual buffers, those buffers still
hold the rejected proposal's values. -/
theorem reject_preserves_last_valid_residuals (s : GlobalState) (r rn : List ℚ) :
    (Global.reject (Global.set_residuals s r rn)).last_valid_residual =
      s.last_valid_residual ∧
    (Global.reject (Global.set_residuals s r rn)).last_valid_residual_normed =
      s.last_valid_residual_normed ∧
    (Global.reject (Global.set_residuals s r rn)).residual = r ∧
    (Global.reject (Global.set_residuals s r rn)).residual_normed = rn := by
  simp [Global.reject, Global.set_residuals, Global.update_residual_mean]

/-- C2: the serial likelihood and the single-rank parallel likelihood
disagree on the Z-direction residual fill.  With an observed Z response
of two samples, SZ = two windows but SY = one window, the serial path
writes both residual entries while the parallel path writes only the
first, leaving the second entry stale: the Z branch of likelihood_mpi
iterates over SY.size() where the serial path iterates over SZ.size(). -/
theorem likelihood_mpi_z_branch_diverges :
    residual_fill_z_serial [3, 5] [1, 1] [0, 0] = some [2, 4] ∧
    residual_fill_z_mpi [3, 5] [0] [1, 1] [0, 0] = some [2, 0] ∧
    residual_fill_z_serial [3, 5] [1, 1] [0, 0] ≠
      residual_fill_z_mpi [3, 5] [0] [1, 1] [0, 0] := by
  norm_num [residual_fill_z_serial, residual_fill_z_mpi, List.range_succ]

/-- C4 counterexample: in posterior-k mode the serial Global::likelihood
returns 1.0 but does not write the log_normalization output parameter:
with the caller's value 5 it stays 5, not 0. -/
theorem likelihood_posteriork_logn_cex :
    likelihood_serial (fun _ => (0, 0)) true 5 = (1, 5) ∧ (5 : ℚ) ≠ 0 := by
  decide

/-- C4 (amended): in posterior-k mode both likelihood entry points return
the constant 1.0 without evaluating the forward computation; the parallel
path sets the returned log_normalization to 0, while the serial path
leaves the output parameter at the caller's value. -/
theorem likelihood_posteriork_spec (compute : Unit → ℚ × ℚ) (logn : ℚ) :
    likelihood_serial compute true logn = (1, logn) ∧
    likelihood_mpi_entry compute true logn = (1, 0) := by
  exact ⟨rfl, rfl⟩

/-- C5 counterexample: the degree pair (0, 0) lies outside [1, 16), yet
the Global constructor accepts it (its check is 0 <= d < 16), so the
claim that the constructor throws for every pair outside [1, 16) is
false. -/
theorem degree_validation_cex :
    global_degree_ok 0 0 = true ∧ ¬(1 ≤ (0 : ℤ)) := by
  decide

/-- C5 (amended): the CLI option parser accepts degrees in [1, 16] and
the Global constructor accepts degrees in [0, 16); a degree pair passes
both validation layers exactly when dx, dy lie in [1, 16), so every pair
inside [1, 16) passes and every pair outside is rejected by at least one
of the two layers (0 only by the CLI, 16 only by the constructor). -/
theorem degree_validation_combined (dx dy : ℤ) :
    (cli_degree_ok dx && cli_degree_ok dy && global_degree_ok dx dy) = true ↔
    (1 ≤ dx ∧ dx < 16 ∧ 1 ≤ dy ∧ dy < 16) := by
  simp only [cli_degree_ok, global_degree_ok, Bool.and_eq_true, Bool.not_eq_true',
    Bool.or_eq_false_iff, decide_eq_false_iff_not, not_lt, not_le]
  constructor
  · rintro ⟨⟨⟨h1, h2⟩, h3, h4⟩, h5⟩
    omega
  · intro h
    omega

/-- C9 counterexample: with requested kmax = 10 and only 4 coefficients,
the Global constructor truncates its own bound to 4, but the driver
allocates the khistogram array with the original kmax = 10, which
exceeds the number of available coefficients. -/
theorem khistogram_alloc_exceeds_ncoeff_cex :
    global_kmax 10 4 = 4 ∧ khistogram_size 10 = 10 ∧
    ¬(khistogram_size 10 ≤ 4) := by
  decide

/-- C9 (amended): the Global constructor silently truncates its kmax
member to min(kmax, ncoeff), and the hnk table is built with that
truncated bound, which never exceeds the number of coefficients; the
driver's khistogram array, however, is allocated with the untruncated
CLI kmax. -/
theorem global_kmax_truncation (kmax ncoeff : ℕ) :
    global_kmax kmax ncoeff = min kmax ncoeff ∧
    hnk_kmax kmax ncoeff ≤ ncoeff ∧
    khistogram_size kmax = kmax := by
  have h : global_kmax kmax ncoeff = min kmax ncoeff := by
    unfold global_kmax
    split <;> omega
  refine ⟨h, ?_, rfl⟩
  unfold hnk_kmax
  rw [h]
  omega

/-- C3: the residual-validity protocol.  A successful PT exchange (or
resample) is followed by the driver invalidating the residuals, so the
chain enters its next move with residuals_valid false whatever the
transplant wrote; Global::hierarchical_likelihood entered with stale
residuals first runs a full likelihood of the current model and accepts
it (making residuals_valid true and refreshing last_valid_residual with
the current model's residuals) before evaluating the hierarchical noise
sum on those last-valid residuals, and when the residuals are already
valid it uses the stored last-valid residuals directly: a hierarchical
move never reads residuals of a previous model. -/
theorem residual_validity_protocol (transplant : GlobalState → GlobalState)
    (f : ℕ → List ℚ × List ℚ) (hnll : ℚ → List ℚ → ℚ) (lam : ℚ)
    (s t : GlobalState) (hs : s.residuals_valid = false) :
    (driver_pt_exchange transplant true t).residuals_valid = false ∧
    (Global.hierarchical_likelihood f hnll lam s).1 = hnll lam (f s.model).1 ∧
    (Global.hierarchical_likelihood f hnll lam s).2.residuals_valid = true ∧
    (Global.hierarchical_likelihood f hnll lam s).2.last_valid_residual =
      (f s.model).1 ∧
    (t.residuals_valid = true →
      (Global.hierarchical_likelihood f hnll lam t).1 =
        hnll lam t.last_valid_residual) := by
  refine ⟨?_, ?_, ?_, ?_, ?_⟩
  · simp [driver_pt_exchange, Global.invalidate_residuals]
  · simp [Global.hierarchical_likelihood, hs, Global.accept,
      Global.likelihood_eval, Global.update_residual_mean]
  · simp [Global.hierarchical_likelihood, hs, Global.accept,
      Global.likelihood_eval, Global.update_residual_mean]
  · simp [Global.hierarchical_likelihood, hs, Global.accept,
      Global.likelihood_eval, Global.update_residual_mean]
  · intro ht
    simp [Global.hierarchical_likelihood, ht]

/-- C3 witness: the protocol instantiated on a concrete stale chain state
and a concrete transplanting exchange. -/
theorem residual_validity_protocol_witness :
    (driver_pt_exchange (fun u => { u with model := 9, residuals_valid := true })
        true ⟨4, [0], [0], [8], [8], true, [0], [0], 0⟩).residuals_valid = false ∧
    (Global.hierarchical_likelihood (fun m => ([(m : ℚ)], [(m : ℚ) + 1]))
        (fun lam r => lam + r.sum) 2
        ⟨3, [0], [0], [7], [7], false, [0], [0], 0⟩).1 =
      (fun (lam : ℚ) (r : List ℚ) => lam + r.sum) 2
        ((fun (m : ℕ) => ([(m : ℚ)], [(m : ℚ) + 1])) 3).1 ∧
    (Global.hierarchical_likelihood (fun m => ([(m : ℚ)], [(m : ℚ) + 1]))
        (fun lam r => lam + r.sum) 2
        ⟨3, [0], [0], [7], [7], false, [0], [0], 0⟩).2.residuals_valid = true ∧
    (Global.hierarchical_likelihood (fun m => ([(m : ℚ)], [(m : ℚ) + 1]))
        (fun lam r => lam + r.sum) 2
        ⟨3, [0], [0], [7], [7], false, [0], [0], 0⟩).2.last_valid_residual =
      ((fun (m : ℕ) => ([(m : ℚ)], [(m : ℚ) + 1])) 3).1 ∧
    ((⟨4, [0], [0], [8], [8], true, [0], [0], 0⟩ : GlobalState).residuals_valid = true →
      (Global.hierarchical_likelihood (fun m => ([(m : ℚ)], [(m : ℚ) + 1]))
          (fun lam r => lam + r.sum) 2
          ⟨4, [0], [0], [8], [8], true, [0], [0], 0⟩).1 =
        (fun (lam : ℚ) (r : List ℚ) => lam + r.sum) 2
          (⟨4, [0], [0], [8], [8], true, [0], [0], 0⟩ : GlobalState).last_valid_residual) :=
  residual_validity_protocol
    (fun u => { u with model := 9, residuals_valid := true })
    (fun m => ([(m : ℚ)], [(m : ℚ) + 1])) (fun lam r => lam + r.sum) 2
    ⟨3, [0], [0], [7], [7], false, [0], [0], 0⟩
    ⟨4, [0], [0], [8], [8], true, [0], [0], 0⟩ rfl

/-- Helper: incrementing one in-range entry of a list of naturals raises
its sum by exactly one. -/
theorem sum_set_incr (l : List ℕ) (i : ℕ) (h : i < l.length) :
    (l.set i (l.getD i 0 + 1)).sum = l.sum + 1 := by
  induction l generalizing i with
  | nil => simp at h
  | cons a t ih =>
    cases i with
    | zero =>
      simp [List.sum_cons]
      omega
    | succ n =>
      have hn : n < t.length := by simpa using h
      simp only [List.getD_cons_succ, List.set_cons_succ, List.sum_cons, ih n hn]
      omega

/-- Helper: folding the khistogram update over in-range coefficient
counts adds one to the histogram sum per iteration and keeps the number
of bins. -/
theorem khistogram_foldl (kmax : ℕ) (ks : List ℕ) :
    ∀ hist : List ℕ, (∀ k ∈ ks, 1 ≤ k ∧ k ≤ kmax) → hist.length = kmax →
      (ks.foldl khistogram_update hist).sum = hist.sum + ks.length ∧
      (ks.foldl khistogram_update hist).length = kmax := by
  induction ks with
  | nil =>
    intro hist _ hlen
    simpa using hlen
  | cons k ks ih =>
    intro hist hk hlen
    have hk1 := hk k (List.mem_cons_self k ks)
    have hstep_len : (khistogram_update hist k).length = kmax := by
      simp [khistogram_update, hlen]
    have hstep_sum : (khistogram_update hist k).sum = hist.sum + 1 :=
      sum_set_incr hist (k - 1) (by omega)
    have hrest := ih (khistogram_update hist k)
      (fun k2 hm => hk k2 (List.mem_cons_of_mem _ hm)) hstep_len
    refine ⟨?_, by simpa using hrest.2⟩
    simp only [List.foldl_cons]
    rw [hrest.1, hstep_sum]
    simp [List.length_cons]
    omega

/-- C6: if every iteration of the driver loop observes a coefficient
count k with 1 <= k <= kmax, then each iteration's khistogram update
raises the total bin count by exactly one (touching only bins of the
allocated range), and after total iterations the khistogram bin counts
sum exactly to total. -/
theorem khistogram_sum_eq_total (kmax total : ℕ) (ks : List ℕ)
    (hlen : ks.length = total) (hk : ∀ k ∈ ks, 1 ≤ k ∧ k ≤ kmax) :
    (∀ (hist : List ℕ) (k : ℕ), hist.length = kmax → 1 ≤ k → k ≤ kmax →
      (khistogram_update hist k).sum = hist.sum + 1 ∧
      (khistogram_update hist k).length = kmax) ∧
    (khistogram_run kmax ks).sum = total := by
  constructor
  · intro hist k h1 h2 h3
    exact ⟨sum_set_incr hist (k - 1) (by omega), by simp [khistogram_update, h1]⟩
  · have h := khistogram_foldl kmax ks (List.replicate kmax 0) hk (by simp)
    have hz : (List.replicate kmax 0).sum = 0 := by simp
    unfold khistogram_run
    rw [h.1, hz, hlen]
    omega

/-- C6 witness: a four-iteration run with kmax = 3 whose histogram sums
to 4. -/
theorem khistogram_sum_eq_total_witness :
    (khistogram_run 3 [1, 3, 2, 3]).sum = 4 :=
  (khistogram_sum_eq_total 3 4 [1, 3, 2, 3] rfl (by decide)).2

/-- Helper: the clamped histogram index always lies in [0, bins - 1]. -/
theorem histogram_index_mem_range (v vmin vmax : ℚ) (bins : ℕ) (hbins : 1 ≤ bins) :
    0 ≤ histogram_index v vmin vmax bins ∧
    (histogram_index v vmin vmax bins).toNat < bins := by
  unfold histogram_index
  dsimp only
  set i := cIntCast ((bins : ℚ) * (v - vmin) / (vmax - vmin)) with hi
  split_ifs with h1 h2 <;> constructor <;> omega

/-- Helper: one pp_process call preserves the histogram shape and keeps
every pixel histogram sum equal to the record counter. -/
theorem pp_process_invariant (skip thin : ℕ) (vmin vmax : ℚ)
    (bins npixels : ℕ) (hbins : 1 ≤ bins) (d : PPData) (m : List ℚ)
    (hm : m.length = npixels)
    (h1 : d.hist.length = npixels)
    (h2 : ∀ (p : ℕ) (hp : p < d.hist.length), d.hist[p].length = bins)
    (h3 : ∀ (p : ℕ) (hp : p < d.hist.length), d.hist[p].sum = d.counter) :
    (pp_process skip thin vmin vmax bins d m).hist.length = npixels ∧
    (∀ (p : ℕ) (hp : p < (pp_process skip thin vmin vmax bins d m).hist.length),
      (pp_process skip thin vmin vmax bins d m).hist[p].length = bins) ∧
    (∀ (p : ℕ) (hp : p < (pp_process skip thin vmin vmax bins d m).hist.length),
      (pp_process skip thin vmin vmax bins d m).hist[p].sum =
        (pp_process skip thin vmin vmax bins d m).counter) := by
  unfold pp_process
  split_ifs with hpass
  · simp only []
    have hlen : (List.zipWith
        (fun h v => bump h (histogram_index v vmin vmax bins).toNat)
        d.hist m).length = npixels := by
      simp [List.length_zipWith, h1, hm]
    refine ⟨hlen, ?_, ?_⟩
    · intro p hp
      have hp1 : p < d.hist.length := by
        rw [h1]
        omega
      have hp2 : p < m.length := by
        rw [hm]
        omega
      rw [List.getElem_zipWith]
      simp [bump, h2 p hp1]
    · intro p hp
      have hp1 : p < d.hist.length := by
        rw [h1]
        omega
      have hp2 : p < m.length := by
        rw [hm]
        omega
      rw [List.getElem_zipWith]
      unfold bump
      rw [sum_set_incr _ _ (by
        rw [h2 p hp1]
        exact (histogram_index_mem_range m[p] vmin vmax bins hbins).2)]
      rw [h3 p hp1]
  · exact ⟨h1, h2, h3⟩

/-- Helper: the invariant carried through the whole replay. -/
theorem pp_foldl_invariant (skip thin : ℕ) (vmin vmax : ℚ)
    (bins npixels : ℕ) (hbins : 1 ≤ bins) :
    ∀ (models : List (List ℚ)) (d : PPData),
      (∀ m ∈ models, m.length = npixels) →
      d.hist.length = npixels →
      (∀ (p : ℕ) (hp : p < d.hist.length), d.hist[p].length = bins) →
      (∀ (p : ℕ) (hp : p < d.hist.length), d.hist[p].sum = d.counter) →
      ((models.foldl (pp_process skip thin vmin vmax bins) d).hist.length = npixels ∧
       ∀ (p : ℕ)
         (hp : p < (models.foldl (pp_process skip thin vmin vmax bins) d).hist.length),
         (models.foldl (pp_process skip thin vmin vmax bins) d).hist[p].sum =
           (models.foldl (pp_process skip thin vmin vmax bins) d).counter) := by
  intro models
  induction models with
  | nil =>
    intro d _ h1 _ h3
    exact ⟨h1, h3⟩
  | cons m ms ih =>
    intro d hm h1 h2 h3
    have hstep := pp_process_invariant skip thin vmin vmax bins npixels hbins d m
      (hm m (List.mem_cons_self m ms)) h1 h2 h3
    simp only [List.foldl_cons]
    exact ih (pp_process skip thin vmin vmax bins d m)
      (fun m2 hm2 => hm m2 (List.mem_cons_of_mem _ hm2))
      hstep.1 hstep.2.1 hstep.2.2

/-- C7: every filter-passing replayed step increments exactly one
histogram bin per pixel, because histogram_index clamps every value
(also those outside [vmin, vmax]) into [0, bins - 1]; consequently after
replaying any list of steps from the zeroed state, every pixel's
histogram bin counts sum to the record counter of filter-passing
steps. -/
theorem pp_histogram_accounting (skip thin : ℕ) (vmin vmax : ℚ)
    (bins npixels : ℕ) (models : List (List ℚ)) (hbins : 1 ≤ bins)
    (hm : ∀ m ∈ models, m.length = npixels) :
    (∀ v : ℚ, 0 ≤ histogram_index v vmin vmax bins ∧
      (histogram_index v vmin vmax bins).toNat < bins) ∧
    (pp_run skip thin vmin vmax bins npixels models).hist.length = npixels ∧
    (∀ p : ℕ, p < npixels →
      ((pp_run skip thin vmin vmax bins npixels models).hist.getD p []).sum =
        (pp_run skip thin vmin vmax bins npixels models).counter) := by
  have hinv := pp_foldl_invariant skip thin vmin vmax bins npixels hbins models
    ⟨0, 0, List.replicate npixels (List.replicate bins 0)⟩ hm
    (by simp) (by intro p hp; simp) (by intro p hp; simp)
  refine ⟨fun v => histogram_index_mem_range v vmin vmax bins hbins, hinv.1, ?_⟩
  intro p hp
  have hp2 : p < (pp_run skip thin vmin vmax bins npixels models).hist.length := by
    unfold pp_run
    rw [hinv.1]
    exact hp
  rw [List.getD_eq_getElem _ _ hp2]
  exact hinv.2 p hp2

/-- C7 witness: a two-step replay on one pixel with two bins; both steps
pass the skip 0 / thin 1 filter, and the pixel histogram sums to the
counter. -/
theorem pp_histogram_accounting_witness :
    ((pp_run 0 1 0 1 2 1 [[0], [1]]).hist.getD 0 []).sum =
      (pp_run 0 1 0 1 2 1 [[0], [1]]).counter :=
  (pp_histogram_accounting 0 1 0 1 2 1 [[0], [1]] (by norm_num)
    (by simp)).2.2 0 (by norm_num)

/-- Helper: the head loop returns its start index once the accumulated
mass has reached drop (in particular immediately when drop = 0). -/
theorem headIdxAux_stop (drop : ℕ) (l : List ℕ) (ci i : ℕ) (h : drop ≤ ci) :
    headIdxAux drop l ci i = i := by
  cases l with
  | nil => rfl
  | cons a t =>
    unfold headIdxAux
    rw [if_neg (by omega)]

/-- Helper: the tail loop returns its start index once the accumulated
mass has reached drop (in particular immediately when drop = 0). -/
theorem tailIdxAux_stop (drop : ℕ) (l : List ℕ) (cj i : ℕ) (h : drop ≤ cj) :
    tailIdxAux drop l cj i = i := by
  cases l with
  | nil => rfl
  | cons a t =>
    unfold tailIdxAux
    rw [if_neg (by omega)]

/-- Helper: the head loop never moves left of its start, and the bins it
walked past (strictly before the returned index) hold, together with the
carried-in count, strictly less than drop. -/
theorem headIdxAux_spec (drop : ℕ) :
    ∀ (l : List ℕ) (ci i : ℕ), ci < drop →
      i ≤ headIdxAux drop l ci i ∧
      ci + (l.take (headIdxAux drop l ci i - i)).sum < drop := by
  intro l
  induction l with
  | nil =>
    intro ci i hci
    simp [headIdxAux]
    omega
  | cons h t ih =>
    intro ci i hci
    unfold headIdxAux
    rw [if_pos hci]
    split_ifs with hbreak
    · refine ⟨le_refl i, ?_⟩
      simpa using hci
    · have hlt : ci + h < drop := by omega
      obtain ⟨hle, hsum⟩ := ih (ci + h) (i + 1) hlt
      set R := headIdxAux drop t (ci + h) (i + 1) with hR
      refine ⟨by omega, ?_⟩
      have hRi : R - i = (R - (i + 1)) + 1 := by omega
      rw [hRi, List.take_succ_cons, List.sum_cons]
      omega

/-- Helper: the tail loop never moves right of its start, and the bins it
walked past (strictly after the returned index, read through the
reversed histogram) hold, with the carried-in count, strictly less than
drop. -/
theorem tailIdxAux_spec (drop : ℕ) :
    ∀ (l : List ℕ) (cj i : ℕ), cj < drop →
      tailIdxAux drop l cj i ≤ i ∧
      cj + (l.take (i - tailIdxAux drop l cj i)).sum < drop := by
  intro l
  induction l with
  | nil =>
    intro cj i hcj
    simp [tailIdxAux]
    omega
  | cons h t ih =>
    intro cj i hcj
    unfold tailIdxAux
    split_ifs with hcond hbreak
    · refine ⟨le_refl i, ?_⟩
      simpa using hcj
    · have hlt : cj + h < drop := by omega
      obtain ⟨hle, hsum⟩ := ih (cj + h) (i - 1) hlt
      set R := tailIdxAux drop t (cj + h) (i - 1) with hR
      refine ⟨by omega, ?_⟩
      have hRi : i - R = ((i - 1) - R) + 1 := by omega
      rw [hRi, List.take_succ_cons, List.sum_cons]
      omega
    · refine ⟨le_refl i, ?_⟩
      simpa using hcj

/-- Helper: a take never sums to more than the whole list. -/
theorem sum_take_le (l : List ℕ) (a : ℕ) : (l.take a).sum ≤ l.sum := by
  conv_rhs => rw [← List.take_append_drop a l]
  rw [List.sum_append]
  omega

/-- Helper: take sums are monotone in the cut point. -/
theorem sum_take_mono (l : List ℕ) {a b : ℕ} (hab : a ≤ b) :
    (l.take a).sum ≤ (l.take b).sum := by
  have h1 : (l.take b).take a = l.take a := by
    rw [List.take_take]
    congr 1
    omega
  rw [← h1]
  exact sum_take_le (l.take b) a

/-- Helper: the first k entries of the reversed list sum to the last k
entries of the list. -/
theorem sum_reverse_take (l : List ℕ) (k : ℕ) (hk : k ≤ l.length) :
    (l.reverse.take k).sum = (l.drop (l.length - k)).sum := by
  have h : (l.drop (l.length - k)).reverse =
      l.reverse.take (l.length - (l.length - k)) := List.reverse_drop
  have hkk : l.length - (l.length - k) = k := by omega
  rw [hkk] at h
  rw [← h, List.sum_reverse]

/-- Helper: when at most half of the histogram mass is dropped from each
side, the head index cannot pass the tail index. -/
theorem headIdx_le_tailIdx (hist : List ℕ) (bins drop : ℕ)
    (hlen : hist.length = bins) (hbins : 1 ≤ bins)
    (hdrop2 : 2 * drop ≤ hist.sum) :
    headIdxAux drop hist 0 0 ≤ tailIdxAux drop hist.reverse 0 (bins - 1) := by
  rcases Nat.eq_zero_or_pos drop with hd0 | hdpos
  · subst hd0
    rw [headIdxAux_stop 0 hist 0 0 (le_refl 0),
      tailIdxAux_stop 0 hist.reverse 0 (bins - 1) (le_refl 0)]
    omega
  · obtain ⟨hle_h, hsum_h⟩ := headIdxAux_spec drop hist 0 0 hdpos
    obtain ⟨hle_t, hsum_t⟩ := tailIdxAux_spec drop hist.reverse 0 (bins - 1) hdpos
    set hIdx := headIdxAux drop hist 0 0 with hhI
    set tIdx := tailIdxAux drop hist.reverse 0 (bins - 1) with htI
    by_contra hcon
    push_neg at hcon
    have hrevlen : hist.reverse.length = bins := by simp [hlen]
    have hsuffix : (hist.drop (tIdx + 1)).sum < drop := by
      have hb := sum_reverse_take hist ((bins - 1) - tIdx) (by omega)
      have hidx : hist.length - ((bins - 1) - tIdx) = tIdx + 1 := by omega
      rw [hidx] at hb
      rw [← hb]
      have hsum_t2 : (hist.reverse.take ((bins - 1) - tIdx)).sum < drop := by
        simpa using hsum_t
      exact hsum_t2
    have hpre : (hist.take (tIdx + 1)).sum < drop := by
      have h1 : (hist.take (tIdx + 1)).sum ≤ (hist.take hIdx).sum :=
        sum_take_mono hist (by omega)
      have h2 : (hist.take hIdx).sum < drop := by simpa using hsum_h
      omega
    have htot : (hist.take (tIdx + 1)).sum + (hist.drop (tIdx + 1)).sum = hist.sum := by
      rw [← List.sum_append, List.take_append_drop]
    omega

/-- C8: for a pixel histogram with bins entries and the credible drop
computed as the integer part of (number of samples times 0.05) / 2 =
samples / 40, the credible-interval minimum from head_from_histogram is
at most the credible-interval maximum from tail_from_histogram. -/
theorem credible_min_le_credible_max (hist : List ℕ) (vmin vmax : ℚ)
    (bins drop : ℕ) (hlen : hist.length = bins) (hbins : 1 ≤ bins)
    (hv : vmin ≤ vmax) (hdrop : drop = hist.sum / 40) :
    head_from_histogram hist vmin vmax bins drop ≤
      tail_from_histogram hist vmin vmax bins drop := by
  have hdrop2 : 2 * drop ≤ hist.sum := by
    subst hdrop
    calc 2 * (hist.sum / 40) ≤ 2 * (hist.sum / 2) :=
          Nat.mul_le_mul_left 2 (Nat.div_le_div_left (by norm_num) (by norm_num))
      _ ≤ hist.sum := by omega
  have hidx := headIdx_le_tailIdx hist bins drop hlen hbins hdrop2
  have hbq : (0 : ℚ) < (bins : ℚ) := by
    have h1 : (1 : ℚ) ≤ (bins : ℚ) := by exact_mod_cast hbins
    linarith
  have hd : (0 : ℚ) ≤ vmax - vmin := by linarith
  have hcast : ((headIdxAux drop hist 0 0 : ℕ) : ℚ) ≤
      ((tailIdxAux drop hist.reverse 0 (bins - 1) : ℕ) : ℚ) := by
    exact_mod_cast hidx
  unfold head_from_histogram tail_from_histogram bin_centre
  apply add_le_add_right
  apply mul_le_mul_of_nonneg_right _ hd
  exact (div_le_div_iff_of_pos_right hbq).mpr (by linarith)

/-- C8 witness: a concrete two-bin histogram with 80 samples and
drop = 80 / 40 = 2; the credible minimum is at most the credible
maximum. -/
theorem credible_min_le_credible_max_witness :
    head_from_histogram [40, 40] 0 1 2 2 ≤ tail_from_histogram [40, 40] 0 1 2 2 :=
  credible_min_le_credible_max [40, 40] 0 1 2 2 rfl (by norm_num)
    (by norm_num) (by decide)

/-- C10: a chain's temperature depends only on its temperature level and
the ladder parameters: with a single level every chain runs at
temperature 1; otherwise level t of M levels runs at
10 ^ (log10(max_temperature) * t / (M - 1)), a geometric ladder whose
level 0 is exactly temperature 1 and whose top level M - 1 is exactly
max_temperature. -/
theorem temperature_ladder (temperatures temp_id : ℕ) (max_temperature : ℝ)
    (hmax : 1 ≤ max_temperature) :
    (temperatures = 1 → chainTemperature temperatures temp_id max_temperature = 1) ∧
    (temperatures ≠ 1 → chainTemperature temperatures temp_id max_temperature =
      (10 : ℝ) ^ (Real.logb 10 max_temperature * (temp_id : ℝ) /
        ((temperatures : ℝ) - 1))) ∧
    (temp_id = 0 → 2 ≤ temperatures →
      chainTemperature temperatures temp_id max_temperature = 1) ∧
    (temp_id = temperatures - 1 → 2 ≤ temperatures →
      chainTemperature temperatures temp_id max_temperature = max_temperature) := by
  have hmaxpos : (0 : ℝ) < max_temperature := lt_of_lt_of_le one_pos hmax
  refine ⟨?_, ?_, ?_, ?_⟩
  · intro h
    simp [chainTemperature, h]
  · intro h
    simp [chainTemperature, h]
  · intro h0 h2
    have hne : temperatures ≠ 1 := by omega
    subst h0
    simp [chainTemperature, hne, Real.rpow_zero]
  · intro ht h2
    have hne : temperatures ≠ 1 := by omega
    subst ht
    simp only [chainTemperature, if_neg hne]
    have h1le : (1 : ℕ) ≤ temperatures := by omega
    have hcast : ((temperatures - 1 : ℕ) : ℝ) = (temperatures : ℝ) - 1 := by
      push_cast [Nat.cast_sub h1le]
      ring
    rw [hcast]
    have hne2 : (temperatures : ℝ) - 1 ≠ 0 := by
      have h2r : (2 : ℝ) ≤ (temperatures : ℝ) := by exact_mod_cast h2
      linarith
    rw [mul_div_assoc, div_self hne2, mul_one]
    exact Real.rpow_logb (by norm_num) (by norm_num) hmaxpos

/-- C10 witness: with two levels and max temperature 10, the top level
runs at exactly temperature 10. -/
theorem temperature_ladder_witness : chainTemperature 2 1 10 = 10 :=
  (temperature_ladder 2 1 10 (by norm_num)).2.2.2 rfl (by norm_num)

end TDTAemInvert
